import Mathlib

/-!
Shallow embedding of the core components of the rag-financial-ai-agent
repository: the TTL memory cache (`src/lib/cache.ts`), the sliding-window
rate limiter (`src/lib/ratelimit.ts`), the cache-key generator, and the
cache interactions of the chat HTTP handler and the `withResponseCache`
wrapper.  JavaScript `Map`s are modelled as insertion-ordered association
lists, `Date.now()` instants as `Int` milliseconds passed explicitly, and
JavaScript numbers as `Nat`/`Int`/`ℚ` with 32-bit wrap-around made explicit
where the source relies on it (`simpleHash`).
-/

/-- Association-list model of a JavaScript `Map` lookup. -/
def assocFind {β : Type} (key : String) : List (String × β) → Option β
  | [] => none
  | p :: rest => if p.1 = key then some p.2 else assocFind key rest

/-- `Map.set`: overwrite in place (keeping the original insertion position)
or append a fresh entry at the end. -/
def assocSet {β : Type} (key : String) (v : β) : List (String × β) → List (String × β)
  | [] => [(key, v)]
  | p :: rest => if p.1 = key then (key, v) :: rest else p :: assocSet key v rest

/-- `Map.delete`: remove the entry with the given key. -/
def assocDelete {β : Type} (key : String) : List (String × β) → List (String × β)
  | [] => []
  | p :: rest => if p.1 = key then rest else p :: assocDelete key rest

/-- `CacheEntry<T>` from `src/lib/cache.ts`. -/
structure CacheEntry (T : Type) where
  data : T
  timestamp : Int
  ttl : Int
  hits : Nat
  deriving DecidableEq

/-- `MemoryCache<T>` state: the `Map`, the configuration and the hit/miss stats. -/
structure MemoryCache (T : Type) where
  cache : List (String × CacheEntry T)
  maxSize : Nat
  defaultTtl : Int
  hits : Nat
  misses : Nat
  deriving DecidableEq

/-- `CacheStats` as reported by `getStats()`.  `hitRate` is a JS number,
modelled as an exact rational. -/
structure CacheStats where
  totalEntries : Nat
  totalHits : Nat
  totalMisses : Nat
  hitRate : ℚ
  memoryUsage : Nat

/-- The `MemoryCache` constructor (`new MemoryCache(maxSize, defaultTtl)`). -/
def MemoryCache.new {T : Type} (maxSize : Nat) (defaultTtl : Int) : MemoryCache T :=
  { cache := [], maxSize := maxSize, defaultTtl := defaultTtl, hits := 0, misses := 0 }

/-- `evictOldest()`: scan in insertion order for the entry with the smallest
timestamp strictly below `Date.now()` (the fold's initial value) and delete it;
when no entry has a timestamp strictly below `now`, nothing is deleted. -/
def MemoryCache.evictOldest {T : Type} (c : MemoryCache T) (now : Int) : MemoryCache T :=
  let acc := c.cache.foldl
    (fun (acc : Option String × Int) kv =>
      if kv.2.timestamp < acc.2 then (some kv.1, kv.2.timestamp) else acc)
    (none, now)
  match acc.1 with
  | some k => { c with cache := assocDelete k c.cache }
  | none => c

/-- `set(key, value, ttl?)`: evict (at capacity, new key) then insert. -/
def MemoryCache.set {T : Type} (c : MemoryCache T) (now : Int) (key : String) (value : T)
    (ttl : Option Int) : MemoryCache T :=
  let entryTtl := ttl.getD c.defaultTtl
  let c1 := if c.maxSize ≤ c.cache.length ∧ (assocFind key c.cache).isNone
    then c.evictOldest now else c
  { c1 with cache := assocSet key { data := value, timestamp := now, ttl := entryTtl, hits := 0 } c1.cache }

/-- Bump the per-entry `hits` counter of the entry under `key` (`entry.hits++`). -/
def bumpEntryHits {T : Type} (key : String) : List (String × CacheEntry T) → List (String × CacheEntry T)
  | [] => []
  | p :: rest =>
    if p.1 = key then (p.1, { p.2 with hits := p.2.hits + 1 }) :: rest
    else p :: bumpEntryHits key rest

/-- `get(key)`: lazy-expiry read returning the value (or `none`) and the
mutated cache (expired entry deleted, stats updated). -/
def MemoryCache.get {T : Type} (c : MemoryCache T) (now : Int) (key : String) :
    Option T × MemoryCache T :=
  match assocFind key c.cache with
  | none => (none, { c with misses := c.misses + 1 })
  | some entry =>
    if entry.ttl < now - entry.timestamp then
      (none, { c with cache := assocDelete key c.cache, misses := c.misses + 1 })
    else
      (some entry.data, { c with cache := bumpEntryHits key c.cache, hits := c.hits + 1 })

/-- `has(key)`: same expiry semantics as `get` but without touching the stats. -/
def MemoryCache.hasKey {T : Type} (c : MemoryCache T) (now : Int) (key : String) :
    Bool × MemoryCache T :=
  match assocFind key c.cache with
  | none => (false, c)
  | some entry =>
    if entry.ttl < now - entry.timestamp then
      (false, { c with cache := assocDelete key c.cache })
    else
      (true, c)

/-- `delete(key)`. -/
def MemoryCache.del {T : Type} (c : MemoryCache T) (key : String) : Bool × MemoryCache T :=
  ((assocFind key c.cache).isSome, { c with cache := assocDelete key c.cache })

/-- `clear()`: drop all entries and reset the stats. -/
def MemoryCache.clear {T : Type} (c : MemoryCache T) : MemoryCache T :=
  { c with cache := [], hits := 0, misses := 0 }

/-- `getStats()`. -/
def MemoryCache.getStats {T : Type} (c : MemoryCache T) : CacheStats :=
  let totalRequests := c.hits + c.misses
  { totalEntries := c.cache.length
    totalHits := c.hits
    totalMisses := c.misses
    hitRate := if 0 < totalRequests then (c.hits : ℚ) / (totalRequests : ℚ) else 0
    memoryUsage := c.cache.length * 1024 }

/-- The periodic `cleanup()` sweep: delete every entry whose TTL has elapsed. -/
def MemoryCache.cleanup {T : Type} (c : MemoryCache T) (now : Int) : MemoryCache T :=
  { c with cache := c.cache.filter (fun kv => !(decide (kv.2.ttl < now - kv.2.timestamp))) }

/-- One observable cache operation (the instant of the call is explicit). -/
inductive CacheOp (T : Type) where
  | set (now : Int) (key : String) (value : T) (ttl : Option Int)
  | get (now : Int) (key : String)
  | hasKey (now : Int) (key : String)
  | del (key : String)
  | clear
  | cleanup (now : Int)

/-- Apply one operation to the cache state (returned values are discarded). -/
def applyOp {T : Type} (c : MemoryCache T) : CacheOp T → MemoryCache T
  | .set now key v ttl => c.set now key v ttl
  | .get now key => (c.get now key).2
  | .hasKey now key => (c.hasKey now key).2
  | .del key => (c.del key).2
  | .clear => c.clear
  | .cleanup now => c.cleanup now

/-- Run a sequence of operations. -/
def applyOps {T : Type} (c : MemoryCache T) (ops : List (CacheOp T)) : MemoryCache T :=
  ops.foldl applyOp c

/-- Number of `get` calls since the most recent `clear` in the sequence. -/
def getsSinceClear {T : Type} (ops : List (CacheOp T)) : Nat :=
  ops.foldl (fun n op => match op with
    | CacheOp.get _ _ => n + 1
    | CacheOp.clear => 0
    | _ => n) 0

/-- `Bucket` from `src/lib/ratelimit.ts`. -/
structure Bucket where
  timestamps : List Int
  limit : Nat
  windowMs : Int
  deriving DecidableEq

/-- The record returned by `rateLimit`. -/
structure RLResult where
  allowed : Bool
  remaining : Int
  resetMs : Int
  deriving DecidableEq

/-- `rateLimit({key, limit, windowMs})`: fetch-or-create the bucket
(overwriting its `limit`/`windowMs`), prune timestamps outside the window,
deny when full, otherwise record `now`.  `bucket.timestamps[0]` on an empty
pruned list (reachable only with `limit = 0`) is modelled as `resetMs = 0`. -/
def rateLimit (m : List (String × Bucket)) (now : Int) (key : String) (limit : Nat)
    (windowMs : Int) : RLResult × List (String × Bucket) :=
  let bucket := match assocFind key m with
    | some b => { b with limit := limit, windowMs := windowMs }
    | none => { timestamps := [], limit := limit, windowMs := windowMs }
  let ts := bucket.timestamps.filter (fun t => decide (now - t < windowMs))
  if limit ≤ ts.length then
    let resetMs := match ts.head? with
      | some t0 => max 0 (windowMs - (now - t0))
      | none => 0
    ({ allowed := false, remaining := 0, resetMs := resetMs },
      assocSet key { bucket with timestamps := ts } m)
  else
    let ts' := ts ++ [now]
    ({ allowed := true, remaining := max 0 ((limit : Int) - (ts'.length : Int)), resetMs := windowMs },
      assocSet key { bucket with timestamps := ts' } m)

/-- Run `rateLimit` for one key over a list of call instants, recording each
admission decision. -/
def rlMapRun (key : String) (limit : Nat) (windowMs : Int) :
    List (String × Bucket) → List Int → List (Int × Bool)
  | _, [] => []
  | m, n :: rest =>
    let r := rateLimit m n key limit windowMs
    (n, r.1.allowed) :: rlMapRun key limit windowMs r.2 rest

/-- Final bucket map after a run of `rateLimit` calls for one key. -/
def rlMapFinal (key : String) (limit : Nat) (windowMs : Int) (m : List (String × Bucket))
    (times : List Int) : List (String × Bucket) :=
  times.foldl (fun m n => (rateLimit m n key limit windowMs).2) m

/-- Instants of the admitted (`allowed = true`) calls of a run. -/
def admittedTimes (l : List (Int × Bool)) : List Int :=
  (l.filter (fun p => p.2)).map (fun p => p.1)

/-- The pure per-bucket step of `rateLimit`: prune, check, append. -/
def rlStep (limit : Nat) (windowMs now : Int) (ts : List Int) : Bool × List Int :=
  let ts' := ts.filter (fun t => decide (now - t < windowMs))
  if limit ≤ ts'.length then (false, ts') else (true, ts' ++ [now])

/-- Pure run of `rlStep` over call instants, recording decisions. -/
def rlRunTs (limit : Nat) (windowMs : Int) : List Int → List Int → List (Int × Bool)
  | _, [] => []
  | ts, n :: rest =>
    let r := rlStep limit windowMs n ts
    (n, r.1) :: rlRunTs limit windowMs r.2 rest

/-- Pure final timestamps after a run of `rlStep`. -/
def rlFinalTs (limit : Nat) (windowMs : Int) (ts : List Int) (times : List Int) : List Int :=
  times.foldl (fun ts n => (rlStep limit windowMs n ts).2) ts

/-- Timestamps of the bucket stored under `key` (empty when absent). -/
def bucketTs (m : List (String × Bucket)) (key : String) : List Int :=
  match assocFind key m with
  | some b => b.timestamps
  | none => []

/-- Membership of `t` in the half-open time interval from `a` of length `w`. -/
def inWindow (a w t : Int) : Bool :=
  decide (a ≤ t) && decide (t < a + w)

/-- Number of elements of `l` inside the window starting at `a` of length `w`. -/
def cw (a w : Int) (l : List Int) : Nat :=
  (l.filter (inWindow a w)).length

/-- `ToInt32` wrap-around of JavaScript bitwise operators. -/
def jsToInt32 (n : Int) : Int :=
  (n + 2 ^ 31) % 2 ^ 32 - 2 ^ 31

/-- The 32-bit accumulator loop of `simpleHash`:
`hash = (hash << 5) - hash + charCode; hash = hash & hash`. -/
def simpleHashInt (s : String) : Int :=
  s.data.foldl (fun h c => jsToInt32 (jsToInt32 (h * 32) - h + (c.toNat : Int))) 0

/-- Digit character used by JavaScript `Number.prototype.toString(base)`
(digits `0`-`9` then lowercase letters). -/
def jsDigitChar (n : Nat) : Char :=
  if n < 10 then Char.ofNat (48 + n) else Char.ofNat (87 + n)

/-- Fuel-driven base conversion accumulating digits most-significant first,
mirroring repeated division by the base. -/
def jsToStringCore (b : Nat) : Nat → Nat → List Char → List Char
  | 0, _, ds => ds
  | fuel + 1, n, ds =>
    let ds' := jsDigitChar (n % b) :: ds
    if n / b = 0 then ds' else jsToStringCore b fuel (n / b) ds'

/-- JavaScript `n.toString(b)` for a nonnegative integer `n`. -/
def jsNatToString (b n : Nat) : String :=
  ⟨jsToStringCore b (n + 1) n []⟩

/-- `simpleHash(str)`: 32-bit accumulator, absolute value, base-36 digits. -/
def simpleHash (s : String) : String :=
  jsNatToString 36 (simpleHashInt s).natAbs

/-- Numeric value of a digit character produced by `jsDigitChar`. -/
def jsDigitVal (c : Char) : Nat :=
  if 97 ≤ c.toNat then c.toNat - 87 else c.toNat - 48

/-- Read a most-significant-first digit string back into a number. -/
def parseBase (b : Nat) (l : List Char) : Nat :=
  l.foldl (fun a c => a * b + jsDigitVal c) 0

/-- A part passed to `generateCacheKey` (`string | number`). -/
inductive KeyPart where
  | str (s : String)
  | num (n : Nat)

/-- Stringification used by `Array.prototype.join`. -/
def KeyPart.render : KeyPart → String
  | .str s => s
  | .num n => jsNatToString 10 n

/-- `parts.join(':')`. -/
def joinColon : List String → String
  | [] => ""
  | [s] => s
  | s :: rest => s ++ ":" ++ joinColon rest

/-- `generateCacheKey(prefix, ...parts)`. -/
def generateCacheKey (pfx : String) (parts : List KeyPart) : String :=
  pfx ++ ":" ++ joinColon (parts.map KeyPart.render)

/-- Truthiness of an optional boolean argument (`undefined` and `false` are falsy). -/
def jsOptBoolTruthy (o : Option Bool) : Bool :=
  o.getD false

/-- `x || d` for an optional number argument (`undefined` and `0` are falsy). -/
def jsOptNatOr (o : Option Nat) (d : Nat) : Nat :=
  match o with
  | none => d
  | some 0 => d
  | some (n + 1) => n + 1

/-- `generateQueryCacheKey(question, topK, enableRerank?, enableLLMRerank?, sentenceWindowSize?)`. -/
def generateQueryCacheKey (question : String) (topK : Nat) (enableRerank : Option Bool)
    (enableLLMRerank : Option Bool) (sentenceWindowSize : Option Nat) : String :=
  let hash := simpleHash question
  generateCacheKey "query"
    [KeyPart.str hash, KeyPart.num topK,
      KeyPart.str (if jsOptBoolTruthy enableRerank then "1" else "0"),
      KeyPart.str (if jsOptBoolTruthy enableLLMRerank then "1" else "0"),
      KeyPart.num (jsOptNatOr sentenceWindowSize 3)]

/-- Outcome of the proxied backend `fetch` in the chat handler. -/
inductive BackendResult (T : Type) where
  | ok (data : T)
  | fail (err : String)
  deriving DecidableEq

/-- Cache interactions of the chat `POST` handler: serve a cached value on a
hit; on a miss consult the backend, storing the result (ttl 300000) only when
it succeeded; a backend failure is returned (as `none`) without any `set`. -/
def chatHandlerCache {T : Type} (c : MemoryCache T) (now : Int) (key : String)
    (backend : BackendResult T) : Option T × MemoryCache T :=
  match c.get now key with
  | (some v, c1) => (some v, c1)
  | (none, c1) =>
    match backend with
    | .ok d => (some d, c1.set now key d (some 300000))
    | .fail _ => (none, c1)

/-- The body/status projection stored by `withResponseCache`. -/
structure CachedResponse where
  body : String
  status : Nat
  deriving DecidableEq

/-- A `Response` as observed by `withResponseCache` (`ok`, `status`, body text). -/
structure JsResponse where
  ok : Bool
  status : Nat
  body : String
  deriving DecidableEq

/-- Rebuilding a `Response` from a cached record (`ok` is derived from the status). -/
def cachedToResp (cv : CachedResponse) : JsResponse :=
  { ok := decide (200 ≤ cv.status ∧ cv.status < 300), status := cv.status, body := cv.body }

/-- `withResponseCache` wrapper body: serve a cached response on a hit;
otherwise run the handler and cache its response only when `response.ok`. -/
def withResponseCacheHandler (c : MemoryCache CachedResponse) (now : Int) (key : String)
    (handlerResp : JsResponse) (ttl : Option Int) : JsResponse × MemoryCache CachedResponse :=
  match c.get now key with
  | (some cv, c1) => (cachedToResp cv, c1)
  | (none, c1) =>
    if handlerResp.ok then
      (handlerResp, c1.set now key { body := handlerResp.body, status := handlerResp.status } ttl)
    else
      (handlerResp, c1)

/-- The two client-identification headers read by `ipFromHeaders`. -/
structure HttpHeaders where
  xForwardedFor : Option String
  xRealIp : Option String
  deriving DecidableEq

/-- JavaScript truthiness of `headers.get(...)` (absent and empty are falsy). -/
def jsStrTruthy (o : Option String) : Bool :=
  match o with
  | none => false
  | some s => !(decide (s = ""))

/-- `s.split(',')[0]`: the characters before the first comma. -/
def splitCommaFirst (s : String) : String :=
  ⟨s.data.takeWhile (fun c => !(decide (c = ',')))⟩

/-- Whitespace stripped by JavaScript `String.prototype.trim`. -/
def jsWhitespace (c : Char) : Bool :=
  (c == ' ') || (c == '\t') || (c == '\n') || (c == '\r') || (c == '\x0B') || (c == '\x0C')

/-- `s.trim()`. -/
def jsTrim (s : String) : String :=
  ⟨((s.data.dropWhile jsWhitespace).reverse.dropWhile jsWhitespace).reverse⟩

/-- `ipFromHeaders(headers)` from `src/lib/ratelimit.ts`. -/
def ipFromHeaders (h : HttpHeaders) : String :=
  if jsStrTruthy h.xForwardedFor then jsTrim (splitCommaFirst (h.xForwardedFor.getD ""))
  else if jsStrTruthy h.xRealIp then h.xRealIp.getD ""
  else "unknown"

/-- The claim's reading of `ipFromHeaders`, keyed on header presence
(rather than the code's truthiness check). -/
def ipFromHeadersClaimed (h : HttpHeaders) : String :=
  match h.xForwardedFor with
  | some s => jsTrim (splitCommaFirst s)
  | none =>
    match h.xRealIp with
    | some s => s
    | none => "unknown"

/-- Fallback of the amended reading when `x-forwarded-for` is absent or empty. -/
def ipRealSpec (h : HttpHeaders) : String :=
  match h.xRealIp with
  | some s => if s = "" then "unknown" else s
  | none => "unknown"

/-- The amended reading of `ipFromHeaders`, keyed on non-emptiness. -/
def ipFromHeadersSpec (h : HttpHeaders) : String :=
  match h.xForwardedFor with
  | some s => if s = "" then ipRealSpec h else jsTrim (splitCommaFirst s)
  | none => ipRealSpec h

/-! Association-list lemmas. -/

theorem assocFind_set_self {β : Type} (key : String) (v : β) :
    ∀ l : List (String × β), assocFind key (assocSet key v l) = some v := by
  intro l
  induction l with
  | nil => simp [assocSet, assocFind]
  | cons p rest ih =>
    by_cases h : p.1 = key
    · simp [assocSet, h, assocFind]
    · simp [assocSet, h, assocFind, ih]

theorem assocFind_set_ne {β : Type} (key k' : String) (v : β) (hne : k' ≠ key) :
    ∀ l : List (String × β), assocFind k' (assocSet key v l) = assocFind k' l := by
  intro l
  induction l with
  | nil => simp [assocSet, assocFind, Ne.symm hne]
  | cons p rest ih =>
    by_cases h : p.1 = key
    · simp [assocSet, h, assocFind, Ne.symm hne]
    · simp [assocSet, h, assocFind, ih]

theorem assocFind_delete_ne {β : Type} (key k' : String) (hne : k' ≠ key) :
    ∀ l : List (String × β), assocFind k' (assocDelete key l) = assocFind k' l := by
  intro l
  induction l with
  | nil => simp [assocDelete]
  | cons p rest ih =>
    by_cases h : p.1 = key
    · simp [assocDelete, h, assocFind, Ne.symm hne]
    · simp [assocDelete, h, assocFind, ih]

theorem assocFind_bumpEntryHits_ne {T : Type} (key k' : String) (hne : k' ≠ key) :
    ∀ l : List (String × CacheEntry T),
      assocFind k' (bumpEntryHits key l) = assocFind k' l := by
  intro l
  induction l with
  | nil => simp [bumpEntryHits]
  | cons p rest ih =>
    by_cases h : p.1 = key
    · simp [bumpEntryHits, h, assocFind, Ne.symm hne]
    · simp [bumpEntryHits, h, assocFind, ih]

theorem assocFind_eq_none_of_not_mem {β : Type} (key : String) :
    ∀ l : List (String × β), key ∉ l.map Prod.fst → assocFind key l = none := by
  intro l
  induction l with
  | nil => intro _; rfl
  | cons p rest ih =>
    intro hmem
    have h1 : ¬ p.1 = key := by
      intro h
      exact hmem (by simp [h])
    have h2 : key ∉ rest.map Prod.fst := by
      intro h
      exact hmem (by simp [h])
    simp [assocFind, h1, ih h2]

/-! C1, C4, C7, C9 and the concrete counterexamples. -/

/-- C1: the capacity invariant fails in the code: with `maxSize = 1`, two
`set` calls of distinct keys in the same millisecond leave 2 stored entries,
because `evictOldest` initialises its fold with `Date.now()` and compares with
a strict `<`, so no entry whose timestamp equals `now` is ever evicted. -/
theorem C1_capacity_overflow_bug :
    (((MemoryCache.new 1 300000 : MemoryCache Nat).set 0 "a" 1 none).set 0 "b" 2 none).cache.length = 2
    ∧ (((MemoryCache.new 1 300000 : MemoryCache Nat).set 0 "a" 1 none).set 0 "b" 2 none).maxSize = 1 := by
  constructor <;> decide

/-- C4: with `limit = 3`, `windowMs = 1000`, calls at 0, 100, 200, 300 are
allowed, allowed, allowed, denied, and a call at 1001 is allowed again; the
denied call recorded no timestamp (final bucket holds 100, 200, 1001). -/
theorem C4_rate_limiter_scenario :
    rlMapRun "k" 3 1000 [] [0, 100, 200, 300, 1001]
      = [(0, true), (100, true), (200, true), (300, false), (1001, true)]
    ∧ assocFind "k" (rlMapFinal "k" 3 1000 [] [0, 100, 200, 300, 1001])
      = some { timestamps := [100, 200, 1001], limit := 3, windowMs := 1000 } := by
  constructor <;> decide

/-- C7: omitting `sentenceWindowSize` and passing the default `3` explicitly
produce the same cache key, for every question, topK and flag combination. -/
theorem C7_ws_default_collision (q : String) (k : Nat) (f1 f2 : Option Bool) :
    generateQueryCacheKey q k f1 f2 none = generateQueryCacheKey q k f1 f2 (some 3) := rfl

/-- C9: omitting the optional rerank flags produces the same cache key as
passing `false` explicitly (both are rendered as the character `0`), jointly
and for each flag separately. -/
theorem C9_flag_default_collision (q : String) (k : Nat) (w : Option Nat) :
    generateQueryCacheKey q k none none w = generateQueryCacheKey q k (some false) (some false) w
    ∧ (∀ f2 : Option Bool,
        generateQueryCacheKey q k none f2 w = generateQueryCacheKey q k (some false) f2 w)
    ∧ (∀ f1 : Option Bool,
        generateQueryCacheKey q k f1 none w = generateQueryCacheKey q k f1 (some false) w) :=
  ⟨rfl, fun _ => rfl, fun _ => rfl⟩

/-- C2 counterexample: the claim says a read at `now - createdAt >= ttl`
returns absent, but at the boundary `now - createdAt = ttl` the code (which
expires only when `now - createdAt > ttl`) still returns the stored value. -/
theorem C2_ttl_boundary_counterexample :
    (5 : Int) - 0 ≥ 5
    ∧ (((MemoryCache.new 1000 300000 : MemoryCache Nat).set 0 "k" 42 (some 5)).get 5 "k").1
        = some 42 := by
  constructor <;> decide

/-- C6 counterexample: changing the question does not always change the key:
the questions `Aa` and `BB` are distinct but collide under `simpleHash`
(both hash to the 32-bit value 2112), so they produce identical cache keys. -/
theorem C6_hash_collision_counterexample :
    generateQueryCacheKey "Aa" 5 none none none = generateQueryCacheKey "BB" 5 none none none
    ∧ "Aa" ≠ "BB" := by
  constructor <;> decide

/-- C8 counterexample: on a failing backend call the cache contents are not
always exactly as before the request: the lookup performed by the handler
deletes an expired entry under the request's key, so the entry map changes. -/
theorem C8_expired_entry_counterexample :
    (chatHandlerCache (⟨[("k", ⟨1, 0, 5, 0⟩)], 500, 300000, 0, 0⟩ : MemoryCache Nat) 10 "k"
        (BackendResult.fail "boom")).2.cache
      ≠ (⟨[("k", ⟨1, 0, 5, 0⟩)], 500, 300000, 0, 0⟩ : MemoryCache Nat).cache := by
  decide

/-- C10 counterexample: the code keys its branches on JavaScript truthiness,
not on header presence: a present-but-empty `x-forwarded-for` header falls
through to `unknown`, whereas the claim's reading returns the empty string. -/
theorem C10_empty_header_counterexample :
    ipFromHeaders { xForwardedFor := some "", xRealIp := none }
      ≠ ipFromHeadersClaimed { xForwardedFor := some "", xRealIp := none } := by
  decide

/-! Stats bookkeeping lemmas for C5. -/

theorem evictOldest_stats {T : Type} (c : MemoryCache T) (now : Int) :
    (c.evictOldest now).hits = c.hits ∧ (c.evictOldest now).misses = c.misses := by
  simp only [MemoryCache.evictOldest]
  constructor <;> (split <;> rfl)

theorem set_stats {T : Type} (c : MemoryCache T) (now : Int) (key : String) (v : T)
    (ttl : Option Int) :
    (c.set now key v ttl).hits = c.hits ∧ (c.set now key v ttl).misses = c.misses := by
  simp only [MemoryCache.set]
  constructor <;>
    (split <;>
      first
        | rfl
        | exact (evictOldest_stats c now).1
        | exact (evictOldest_stats c now).2)

theorem has_stats {T : Type} (c : MemoryCache T) (now : Int) (key : String) :
    (c.hasKey now key).2.hits = c.hits ∧ (c.hasKey now key).2.misses = c.misses := by
  cases hf : assocFind key c.cache with
  | none => simp [MemoryCache.hasKey, hf]
  | some e =>
    by_cases hexp : e.ttl < now - e.timestamp <;>
      simp [MemoryCache.hasKey, hf, hexp]

theorem get_statsSum {T : Type} (c : MemoryCache T) (now : Int) (key : String) :
    (c.get now key).2.hits + (c.get now key).2.misses = c.hits + c.misses + 1 := by
  cases hf : assocFind key c.cache with
  | none => simp [MemoryCache.get, hf]; omega
  | some e =>
    by_cases hexp : e.ttl < now - e.timestamp <;>
      simp [MemoryCache.get, hf, hexp] <;> omega

theorem statsSum_applyOps {T : Type} :
    ∀ (ops : List (CacheOp T)) (c : MemoryCache T),
      (applyOps c ops).hits + (applyOps c ops).misses
        = ops.foldl (fun n op => match op with
            | CacheOp.get _ _ => n + 1
            | CacheOp.clear => 0
            | _ => n) (c.hits + c.misses) := by
  intro ops
  induction ops with
  | nil => intro c; rfl
  | cons op rest ih =>
    intro c
    have h1 : applyOps c (op :: rest) = applyOps (applyOp c op) rest := rfl
    rw [h1, ih (applyOp c op), List.foldl_cons]
    congr 1
    cases op with
    | set now key v ttl => simp [applyOp, (set_stats c now key v ttl).1, (set_stats c now key v ttl).2]
    | get now key => simpa [applyOp] using get_statsSum c now key
    | hasKey now key => simp [applyOp, (has_stats c now key).1, (has_stats c now key).2]
    | del key => simp [applyOp, MemoryCache.del]
    | clear => simp [applyOp, MemoryCache.clear]
    | cleanup now => simp [applyOp, MemoryCache.cleanup]

/-- C5: over every operation sequence from a fresh cache, the hit and miss
counters reported by `getStats` sum to the number of `get` calls since the
last `clear`; `has`, `set` and `delete` never change the counters; and the
reported `hitRate` is `hits / (hits + misses)`, or `0` when no `get` has
been counted. -/
theorem C5_stats_accounting (T : Type) (maxSize : Nat) (defaultTtl : Int)
    (ops : List (CacheOp T)) :
    ((applyOps (MemoryCache.new maxSize defaultTtl) ops).getStats.totalHits
        + (applyOps (MemoryCache.new maxSize defaultTtl) ops).getStats.totalMisses
      = getsSinceClear ops)
    ∧ (∀ c : MemoryCache T,
        c.getStats.hitRate
          = if c.getStats.totalHits + c.getStats.totalMisses = 0 then 0
            else (c.getStats.totalHits : ℚ)
              / ((c.getStats.totalHits : ℚ) + (c.getStats.totalMisses : ℚ)))
    ∧ (∀ (c : MemoryCache T) (now : Int) (key : String) (v : T) (ttl : Option Int),
        (c.set now key v ttl).hits = c.hits ∧ (c.set now key v ttl).misses = c.misses)
    ∧ (∀ (c : MemoryCache T) (now : Int) (key : String),
        (c.hasKey now key).2.hits = c.hits ∧ (c.hasKey now key).2.misses = c.misses)
    ∧ (∀ (c : MemoryCache T) (key : String),
        (c.del key).2.hits = c.hits ∧ (c.del key).2.misses = c.misses) := by
  refine ⟨?_, ?_, set_stats, has_stats, ?_⟩
  · have h := statsSum_applyOps (T := T) ops (MemoryCache.new maxSize defaultTtl)
    simpa [getsSinceClear, MemoryCache.getStats, MemoryCache.new] using h
  · intro c
    show (if 0 < c.hits + c.misses then (c.hits : ℚ) / (((c.hits + c.misses : Nat)) : ℚ) else 0) = _
    by_cases h : c.hits + c.misses = 0
    · simp [MemoryCache.getStats, h]
    · have hpos : 0 < c.hits + c.misses := Nat.pos_of_ne_zero h
      simp only [MemoryCache.getStats, hpos, if_true, h, if_false]
      push_cast
      ring
  · intro c key
    exact ⟨rfl, rfl⟩

/-! C8 helper lemmas. -/

theorem chatHandlerCache_fail_eq {T : Type} (c : MemoryCache T) (now : Int) (key err : String) :
    (chatHandlerCache c now key (BackendResult.fail err)).2 = (c.get now key).2 := by
  unfold chatHandlerCache
  rcases hg : c.get now key with ⟨o, c1⟩
  cases o <;> simp [hg]

theorem withResponseCache_notOk_eq (c : MemoryCache CachedResponse) (now : Int) (key : String)
    (r : JsResponse) (ttl : Option Int) (hok : r.ok = false) :
    (withResponseCacheHandler c now key r ttl).2 = (c.get now key).2 := by
  unfold withResponseCacheHandler
  rcases hg : c.get now key with ⟨o, c1⟩
  cases o <;> simp [hg, hok]

theorem get_preserves_other_keys {T : Type} (c : MemoryCache T) (now : Int) (key k' : String)
    (hne : k' ≠ key) : assocFind k' (c.get now key).2.cache = assocFind k' c.cache := by
  cases hf : assocFind key c.cache with
  | none => simp [MemoryCache.get, hf]
  | some e =>
    by_cases hexp : e.ttl < now - e.timestamp
    · simp [MemoryCache.get, hf, hexp, assocFind_delete_ne key k' hne]
    · simp [MemoryCache.get, hf, hexp, assocFind_bumpEntryHits_ne key k' hne]

/-- C8 (amended): on a failing backend call the chat handler performs no
`responseCache.set`: the resulting cache is exactly the post-lookup cache, so
no key other than the requested one changes (the requested key can only
disappear, by lazy expiry during the lookup); and the `withResponseCache`
wrapper stores a response only when `response.ok` holds. -/
theorem C8_no_error_caching_amended :
    (∀ (T : Type) (c : MemoryCache T) (now : Int) (key err : String),
      (chatHandlerCache c now key (BackendResult.fail err)).2 = (c.get now key).2)
    ∧ (∀ (T : Type) (c : MemoryCache T) (now : Int) (key err k' : String), k' ≠ key →
      assocFind k' (chatHandlerCache c now key (BackendResult.fail err)).2.cache
        = assocFind k' c.cache)
    ∧ (∀ (c : MemoryCache CachedResponse) (now : Int) (key : String) (r : JsResponse)
        (ttl : Option Int), r.ok = false →
      (withResponseCacheHandler c now key r ttl).2 = (c.get now key).2) := by
  refine ⟨fun T c now key err => chatHandlerCache_fail_eq c now key err, ?_, ?_⟩
  · intro T c now key err k' hne
    rw [chatHandlerCache_fail_eq c now key err]
    exact get_preserves_other_keys c now key k' hne
  · intro c now key r ttl hok
    exact withResponseCache_notOk_eq c now key r ttl hok

/-- C8 witness: the amended theorem applied to concrete inputs. -/
theorem C8_no_error_caching_witness :
    ((chatHandlerCache (MemoryCache.new 2 1000 : MemoryCache Nat) 0 "k" (BackendResult.fail "e")).2
        = ((MemoryCache.new 2 1000 : MemoryCache Nat).get 0 "k").2)
    ∧ (assocFind "a" (chatHandlerCache (MemoryCache.new 2 1000 : MemoryCache Nat) 0 "k"
          (BackendResult.fail "e")).2.cache
        = assocFind "a" (MemoryCache.new 2 1000 : MemoryCache Nat).cache)
    ∧ ((withResponseCacheHandler (MemoryCache.new 2 1000) 0 "k"
          { ok := false, status := 500, body := "err" } none).2
        = ((MemoryCache.new 2 1000 : MemoryCache CachedResponse).get 0 "k").2) :=
  ⟨C8_no_error_caching_amended.1 Nat (MemoryCache.new 2 1000) 0 "k" "e",
   C8_no_error_caching_amended.2.1 Nat (MemoryCache.new 2 1000) 0 "k" "e" "a" (by decide),
   C8_no_error_caching_amended.2.2 (MemoryCache.new 2 1000) 0 "k"
     { ok := false, status := 500, body := "err" } none (by decide)⟩

/-- C10 (amended): `ipFromHeaders` returns the trimmed first comma-separated
entry of `x-forwarded-for` when that header is present and non-empty,
otherwise `x-real-ip` when present and non-empty, otherwise `unknown`; in
particular every request carrying neither header maps to `unknown` and hence
to the same rate-limit bucket key for a given endpoint. -/
theorem C10_ip_from_headers_amended :
    (∀ h : HttpHeaders, ipFromHeaders h = ipFromHeadersSpec h)
    ∧ (∀ h : HttpHeaders, h.xForwardedFor = none → h.xRealIp = none →
        ipFromHeaders h = "unknown") := by
  constructor
  · intro h
    obtain ⟨xf, xr⟩ := h
    cases xf with
    | none =>
      cases xr with
      | none => rfl
      | some s =>
        by_cases hs : s = "" <;>
          simp [ipFromHeaders, ipFromHeadersSpec, ipRealSpec, jsStrTruthy, hs]
    | some s =>
      by_cases hs : s = ""
      · cases xr with
        | none => simp [ipFromHeaders, ipFromHeadersSpec, ipRealSpec, jsStrTruthy, hs]
        | some s2 =>
          by_cases hs2 : s2 = "" <;>
            simp [ipFromHeaders, ipFromHeadersSpec, ipRealSpec, jsStrTruthy, hs, hs2]
      · simp [ipFromHeaders, ipFromHeadersSpec, jsStrTruthy, hs]
  · intro h h1 h2
    obtain ⟨xf, xr⟩ := h
    simp only at h1 h2
    subst h1
    subst h2
    rfl

/-- C10 witness: the amended theorem applied to concrete headers. -/
theorem C10_ip_from_headers_witness :
    (ipFromHeaders { xForwardedFor := some " 1.2.3.4 ,5.6.7.8", xRealIp := some "9.9.9.9" }
      = ipFromHeadersSpec { xForwardedFor := some " 1.2.3.4 ,5.6.7.8", xRealIp := some "9.9.9.9" })
    ∧ ipFromHeaders { xForwardedFor := none, xRealIp := none } = "unknown" :=
  ⟨C10_ip_from_headers_amended.1 { xForwardedFor := some " 1.2.3.4 ,5.6.7.8", xRealIp := some "9.9.9.9" },
   C10_ip_from_headers_amended.2 { xForwardedFor := none, xRealIp := none } rfl rfl⟩

/-! Key-uniqueness (Map invariant) machinery for C2. -/

theorem assocSet_keys_mem {β : Type} (key : String) (v : β) :
    ∀ (l : List (String × β)) (x : String),
      x ∈ (assocSet key v l).map Prod.fst → x = key ∨ x ∈ l.map Prod.fst := by
  intro l
  induction l with
  | nil => intro x hx; simp [assocSet] at hx; exact Or.inl hx
  | cons p rest ih =>
    intro x hx
    by_cases h : p.1 = key
    · rw [show assocSet key v (p :: rest) = (key, v) :: rest from by simp [assocSet, h]] at hx
      rw [List.map_cons] at hx
      rcases List.mem_cons.mp hx with h1 | h1
      · exact Or.inl h1
      · exact Or.inr (by rw [List.map_cons]; exact List.mem_cons.mpr (Or.inr h1))
    · rw [show assocSet key v (p :: rest) = p :: assocSet key v rest from by simp [assocSet, h]] at hx
      rw [List.map_cons] at hx
      rcases List.mem_cons.mp hx with h1 | h1
      · exact Or.inr (by rw [List.map_cons]; exact List.mem_cons.mpr (Or.inl h1))
      · rcases ih x h1 with h2 | h2
        · exact Or.inl h2
        · exact Or.inr (by rw [List.map_cons]; exact List.mem_cons.mpr (Or.inr h2))

theorem assocSet_keys_nodup {β : Type} (key : String) (v : β) :
    ∀ l : List (String × β), (l.map Prod.fst).Nodup → ((assocSet key v l).map Prod.fst).Nodup := by
  intro l
  induction l with
  | nil => intro _; simp [assocSet]
  | cons p rest ih =>
    intro hnd
    have h1 : p.1 ∉ rest.map Prod.fst := (List.nodup_cons.mp (by simpa using hnd)).1
    have h2 : (rest.map Prod.fst).Nodup := (List.nodup_cons.mp (by simpa using hnd)).2
    by_cases h : p.1 = key
    · rw [show assocSet key v (p :: rest) = (key, v) :: rest from by simp [assocSet, h]]
      rw [List.map_cons, List.nodup_cons]
      exact ⟨by rw [← h]; exact h1, h2⟩
    · rw [show assocSet key v (p :: rest) = p :: assocSet key v rest from by simp [assocSet, h]]
      rw [List.map_cons, List.nodup_cons]
      refine ⟨?_, ih h2⟩
      intro hx
      rcases assocSet_keys_mem key v rest p.1 hx with h2' | h2'
      · exact h h2'
      · exact h1 h2'

theorem assocDelete_keys_sublist {β : Type} (key : String) :
    ∀ l : List (String × β), ((assocDelete key l).map Prod.fst).Sublist (l.map Prod.fst) := by
  intro l
  induction l with
  | nil => simp [assocDelete]
  | cons p rest ih =>
    by_cases h : p.1 = key
    · rw [show assocDelete key (p :: rest) = rest from by simp [assocDelete, h]]
      rw [List.map_cons]
      exact (List.Sublist.refl _).cons p.1
    · rw [show assocDelete key (p :: rest) = p :: assocDelete key rest from by simp [assocDelete, h]]
      rw [List.map_cons, List.map_cons]
      exact ih.cons₂ p.1

theorem evictOldest_keys_nodup {T : Type} (c : MemoryCache T) (now : Int)
    (h : (c.cache.map Prod.fst).Nodup) : ((c.evictOldest now).cache.map Prod.fst).Nodup := by
  simp only [MemoryCache.evictOldest]
  split
  · exact List.Nodup.sublist (assocDelete_keys_sublist _ c.cache) h
  · exact h

theorem set_keys_nodup {T : Type} (c : MemoryCache T) (now : Int) (key : String) (v : T)
    (ttl : Option Int) (h : (c.cache.map Prod.fst).Nodup) :
    ((c.set now key v ttl).cache.map Prod.fst).Nodup := by
  simp only [MemoryCache.set]
  split
  · exact assocSet_keys_nodup key _ _ (evictOldest_keys_nodup c now h)
  · exact assocSet_keys_nodup key _ _ h

theorem assocFind_filter {β : Type} (q : String × β → Bool) (key : String) :
    ∀ l : List (String × β), (l.map Prod.fst).Nodup →
      assocFind key (l.filter q)
        = match assocFind key l with
          | some v => if q (key, v) then some v else none
          | none => none := by
  intro l
  induction l with
  | nil => intro _; rfl
  | cons p rest ih =>
    intro hnd
    obtain ⟨k1, v1⟩ := p
    have h1 : k1 ∉ rest.map Prod.fst := (List.nodup_cons.mp (by simpa using hnd)).1
    have h2 : (rest.map Prod.fst).Nodup := (List.nodup_cons.mp (by simpa using hnd)).2
    by_cases hk : k1 = key
    · subst hk
      by_cases hq : q (k1, v1) = true
      · have hfr : ((k1, v1) :: rest).filter q = (k1, v1) :: rest.filter q := by
          simp [List.filter_cons, hq]
        rw [hfr]
        simp [assocFind, hq]
      · have hfr : ((k1, v1) :: rest).filter q = rest.filter q := by
          simp [List.filter_cons, hq]
        have hnotmem : k1 ∉ (rest.filter q).map Prod.fst := by
          intro hmem
          rcases List.mem_map.mp hmem with ⟨pp, hpp, he⟩
          exact h1 (List.mem_map.mpr ⟨pp, (List.mem_filter.mp hpp).1, he⟩)
        rw [hfr, assocFind_eq_none_of_not_mem k1 _ hnotmem]
        simp [assocFind, hq]
    · by_cases hq : q (k1, v1) = true
      · have hfr : ((k1, v1) :: rest).filter q = (k1, v1) :: rest.filter q := by
          simp [List.filter_cons, hq]
        rw [hfr]
        simp only [assocFind, hk, if_false]
        rw [ih h2]
      · have hfr : ((k1, v1) :: rest).filter q = rest.filter q := by
          simp [List.filter_cons, hq]
        rw [hfr, ih h2]
        simp [assocFind, hk]

/-- C2 (amended): an entry stored by `set` at `createdAt` with time-to-live
`ttl` is returned by `get` at `now` exactly while `now - createdAt <= ttl`
(the code expires strictly after the ttl, not at it), and the value `get`
returns is unaffected by whether the periodic `cleanup` sweep ran at any
earlier instant. -/
theorem C2_ttl_amended {T : Type} (c : MemoryCache T) (createdAt ttl now t : Int)
    (key : String) (v : T) (hnd : (c.cache.map Prod.fst).Nodup) :
    ((((c.set createdAt key v (some ttl)).get now key).1 = some v) ↔ now - createdAt ≤ ttl)
    ∧ (t ≤ now →
      (((c.set createdAt key v (some ttl)).cleanup t).get now key).1
        = ((c.set createdAt key v (some ttl)).get now key).1) := by
  have hfind : assocFind key (c.set createdAt key v (some ttl)).cache
      = some { data := v, timestamp := createdAt, ttl := ttl, hits := 0 } := by
    simp only [MemoryCache.set]
    split <;> exact assocFind_set_self key _ _
  constructor
  · by_cases hexp : ttl < now - createdAt
    · simp [MemoryCache.get, hfind, hexp]
      omega
    · simp [MemoryCache.get, hfind, hexp]
      omega
  · intro hle
    have hnd' : ((c.set createdAt key v (some ttl)).cache.map Prod.fst).Nodup :=
      set_keys_nodup c createdAt key v (some ttl) hnd
    have hclean : assocFind key ((c.set createdAt key v (some ttl)).cleanup t).cache
        = if ttl < t - createdAt then none
          else some { data := v, timestamp := createdAt, ttl := ttl, hits := 0 } := by
      simp only [MemoryCache.cleanup]
      rw [assocFind_filter _ key _ hnd', hfind]
      by_cases hexp2 : ttl < t - createdAt <;> simp [hexp2]
    by_cases hexp2 : ttl < t - createdAt
    · have h1 : assocFind key ((c.set createdAt key v (some ttl)).cleanup t).cache = none := by
        rw [hclean]; simp [hexp2]
      have hexp3 : ttl < now - createdAt := by omega
      simp [MemoryCache.get, h1, hfind, hexp3]
    · have h1 : assocFind key ((c.set createdAt key v (some ttl)).cleanup t).cache
          = some { data := v, timestamp := createdAt, ttl := ttl, hits := 0 } := by
        rw [hclean]; simp [hexp2]
      by_cases hexp : ttl < now - createdAt <;>
        simp [MemoryCache.get, h1, hfind, hexp]

/-- C2 witness: the amended theorem applied to a fresh cache, an entry with
ttl 5 stored at 0, read at 3, with a sweep at 2. -/
theorem C2_ttl_amended_witness :
    ((((MemoryCache.new 1000 300000 : MemoryCache Nat).set 0 "k" 42 (some 5)).get 3 "k").1 = some 42)
    ∧ ((((MemoryCache.new 1000 300000 : MemoryCache Nat).set 0 "k" 42 (some 5)).cleanup 2).get 3 "k").1
        = (((MemoryCache.new 1000 300000 : MemoryCache Nat).set 0 "k" 42 (some 5)).get 3 "k").1 :=
  ⟨(C2_ttl_amended (MemoryCache.new 1000 300000) 0 5 3 2 "k" 42 (by decide)).1.mpr (by decide),
   (C2_ttl_amended (MemoryCache.new 1000 300000) 0 5 3 2 "k" 42 (by decide)).2 (by decide)⟩

/-! Injectivity of the JavaScript number-to-string conversion, via a
parse-back function (for C6). -/

theorem jsDigitVal_jsDigitChar_fin : ∀ k : Fin 36, jsDigitVal (jsDigitChar k.val) = k.val := by
  decide

theorem jsDigitVal_jsDigitChar (k : Nat) (hk : k < 36) : jsDigitVal (jsDigitChar k) = k :=
  jsDigitVal_jsDigitChar_fin ⟨k, hk⟩

theorem jsToStringCore_append (b : Nat) :
    ∀ (fuel n : Nat) (ds : List Char),
      jsToStringCore b fuel n ds = jsToStringCore b fuel n [] ++ ds := by
  intro fuel
  induction fuel with
  | zero => intro n ds; rfl
  | succ fuel ih =>
    intro n ds
    simp only [jsToStringCore]
    by_cases h : n / b = 0
    · simp [h]
    · simp only [h, if_false]
      rw [ih (n / b) (jsDigitChar (n % b) :: ds), ih (n / b) [jsDigitChar (n % b)]]
      simp

theorem parseBase_append_digit (b : Nat) (l : List Char) (c : Char) :
    parseBase b (l ++ [c]) = parseBase b l * b + jsDigitVal c := by
  simp [parseBase, List.foldl_append]

theorem parseBase_jsToStringCore (b : Nat) (hb : 1 < b) (hb36 : b ≤ 36) :
    ∀ (fuel n : Nat), n < b ^ fuel → parseBase b (jsToStringCore b fuel n []) = n := by
  intro fuel
  induction fuel with
  | zero =>
    intro n hn
    have : n = 0 := by simpa using hn
    subst this
    rfl
  | succ fuel ih =>
    intro n hn
    have hb0 : 0 < b := by omega
    have hmod : n % b < 36 := lt_of_lt_of_le (Nat.mod_lt n hb0) hb36
    simp only [jsToStringCore]
    by_cases h : n / b = 0
    · have hnb : n < b := (Nat.div_eq_zero_iff hb0).mp h
      have hn36 : n < 36 := lt_of_lt_of_le hnb hb36
      simp [h, parseBase, Nat.mod_eq_of_lt hnb, jsDigitVal_jsDigitChar n hn36]
    · simp only [h, if_false]
      rw [jsToStringCore_append, parseBase_append_digit,
        ih (n / b) (by rw [Nat.div_lt_iff_lt_mul hb0]; rw [pow_succ] at hn; exact hn),
        jsDigitVal_jsDigitChar (n % b) hmod]
      rw [Nat.mul_comm]
      exact Nat.div_add_mod n b

theorem string_data_inj {s t : String} (h : s.data = t.data) : s = t := by
  cases s
  cases t
  exact congrArg String.mk h

theorem jsNatToString_inj (b : Nat) (hb : 1 < b) (hb36 : b ≤ 36) {m n : Nat}
    (h : jsNatToString b m = jsNatToString b n) : m = n := by
  have hm : m < b ^ (m + 1) := by
    calc m < 2 ^ m := Nat.lt_two_pow m
    _ ≤ 2 ^ (m + 1) := Nat.pow_le_pow_right (by omega) (by omega)
    _ ≤ b ^ (m + 1) := Nat.pow_le_pow_left (by omega) (m + 1)
  have hn : n < b ^ (n + 1) := by
    calc n < 2 ^ n := Nat.lt_two_pow n
    _ ≤ 2 ^ (n + 1) := Nat.pow_le_pow_right (by omega) (by omega)
    _ ≤ b ^ (n + 1) := Nat.pow_le_pow_left (by omega) (n + 1)
  have hdata : jsToStringCore b (m + 1) m [] = jsToStringCore b (n + 1) n [] :=
    congrArg String.data h
  calc m = parseBase b (jsToStringCore b (m + 1) m []) :=
      (parseBase_jsToStringCore b hb hb36 (m + 1) m hm).symm
  _ = parseBase b (jsToStringCore b (n + 1) n []) := by rw [hdata]
  _ = n := parseBase_jsToStringCore b hb hb36 (n + 1) n hn

theorem jsNatToString10_inj {m n : Nat} (h : jsNatToString 10 m = jsNatToString 10 n) : m = n :=
  jsNatToString_inj 10 (by omega) (by omega) h

theorem jsOptNatOr_pos {n : Nat} (h : 0 < n) : jsOptNatOr (some n) 3 = n := by
  cases n with
  | zero => omega
  | succ k => rfl

/-! Decomposition of the generated cache key into its data segments. -/

theorem generateQueryCacheKey_data (q : String) (k : Nat) (f1 f2 : Option Bool) (w : Option Nat) :
    (generateQueryCacheKey q k f1 f2 w).data
      = ("query").data ++ ((":").data ++ ((simpleHash q).data ++ ((":").data
        ++ ((jsNatToString 10 k).data ++ ((":").data
        ++ ((if jsOptBoolTruthy f1 then ("1" : String) else "0").data ++ ((":").data
        ++ ((if jsOptBoolTruthy f2 then ("1" : String) else "0").data ++ ((":").data
        ++ (jsNatToString 10 (jsOptNatOr w 3)).data))))))))) := by
  simp [generateQueryCacheKey, generateCacheKey, joinColon, KeyPart.render,
    String.data_append, List.append_assoc]

/-- C6 (amended): `generateQueryCacheKey` is deterministic, and changing
`topK`, the truthiness of either rerank flag, or `sentenceWindowSize`
(between distinct positive values) always changes the key; changing the
question changes the key exactly when its `simpleHash` differs — distinct
questions may collide (see the counterexample). -/
theorem C6_key_sensitivity_amended :
    (∀ (q : String) (k : Nat) (f1 f2 : Option Bool) (w : Option Nat),
      generateQueryCacheKey q k f1 f2 w = generateQueryCacheKey q k f1 f2 w)
    ∧ (∀ (q : String) (k1 k2 : Nat) (f1 f2 : Option Bool) (w : Option Nat), k1 ≠ k2 →
      generateQueryCacheKey q k1 f1 f2 w ≠ generateQueryCacheKey q k2 f1 f2 w)
    ∧ (∀ (q : String) (k : Nat) (f1 f1' f2 : Option Bool) (w : Option Nat),
      jsOptBoolTruthy f1 ≠ jsOptBoolTruthy f1' →
      generateQueryCacheKey q k f1 f2 w ≠ generateQueryCacheKey q k f1' f2 w)
    ∧ (∀ (q : String) (k : Nat) (f1 f2 f2' : Option Bool) (w : Option Nat),
      jsOptBoolTruthy f2 ≠ jsOptBoolTruthy f2' →
      generateQueryCacheKey q k f1 f2 w ≠ generateQueryCacheKey q k f1 f2' w)
    ∧ (∀ (q : String) (k : Nat) (f1 f2 : Option Bool) (w1 w2 : Nat),
      0 < w1 → 0 < w2 → w1 ≠ w2 →
      generateQueryCacheKey q k f1 f2 (some w1) ≠ generateQueryCacheKey q k f1 f2 (some w2))
    ∧ (∀ (q1 q2 : String) (k : Nat) (f1 f2 : Option Bool) (w : Option Nat),
      simpleHash q1 ≠ simpleHash q2 →
      generateQueryCacheKey q1 k f1 f2 w ≠ generateQueryCacheKey q2 k f1 f2 w) := by
  refine ⟨fun _ _ _ _ _ => rfl, ?_, ?_, ?_, ?_, ?_⟩
  · intro q k1 k2 f1 f2 w hk h
    have hd := congrArg String.data h
    rw [generateQueryCacheKey_data, generateQueryCacheKey_data] at hd
    have h1 := List.append_cancel_left hd
    have h2 := List.append_cancel_left h1
    have h3 := List.append_cancel_left h2
    have h4 := List.append_cancel_left h3
    have h5 := List.append_cancel_right h4
    exact hk (jsNatToString10_inj (string_data_inj h5))
  · intro q k f1 f1' f2 w hne h
    have hd := congrArg String.data h
    rw [generateQueryCacheKey_data, generateQueryCacheKey_data] at hd
    have h1 := List.append_cancel_left hd
    have h2 := List.append_cancel_left h1
    have h3 := List.append_cancel_left h2
    have h4 := List.append_cancel_left h3
    have h5 := List.append_cancel_left h4
    have h6 := List.append_cancel_left h5
    have h7 := List.append_cancel_right h6
    cases hb1 : jsOptBoolTruthy f1 <;> cases hb2 : jsOptBoolTruthy f1' <;>
      rw [hb1, hb2] at h7 hne
    · exact hne rfl
    · exact absurd h7 (by decide)
    · exact absurd h7 (by decide)
    · exact hne rfl
  · intro q k f1 f2 f2' w hne h
    have hd := congrArg String.data h
    rw [generateQueryCacheKey_data, generateQueryCacheKey_data] at hd
    have h1 := List.append_cancel_left hd
    have h2 := List.append_cancel_left h1
    have h3 := List.append_cancel_left h2
    have h4 := List.append_cancel_left h3
    have h5 := List.append_cancel_left h4
    have h6 := List.append_cancel_left h5
    have h7 := List.append_cancel_left h6
    have h8 := List.append_cancel_left h7
    have h9 := List.append_cancel_right h8
    cases hb1 : jsOptBoolTruthy f2 <;> cases hb2 : jsOptBoolTruthy f2' <;>
      rw [hb1, hb2] at h9 hne
    · exact hne rfl
    · exact absurd h9 (by decide)
    · exact absurd h9 (by decide)
    · exact hne rfl
  · intro q k f1 f2 w1 w2 hw1 hw2 hne h
    have hd := congrArg String.data h
    rw [generateQueryCacheKey_data, generateQueryCacheKey_data] at hd
    have h1 := List.append_cancel_left hd
    have h2 := List.append_cancel_left h1
    have h3 := List.append_cancel_left h2
    have h4 := List.append_cancel_left h3
    have h5 := List.append_cancel_left h4
    have h6 := List.append_cancel_left h5
    have h7 := List.append_cancel_left h6
    have h8 := List.append_cancel_left h7
    have h9 := List.append_cancel_left h8
    have h10 := List.append_cancel_left h9
    have h11 := jsNatToString10_inj (string_data_inj h10)
    rw [jsOptNatOr_pos hw1, jsOptNatOr_pos hw2] at h11
    exact hne h11
  · intro q1 q2 k f1 f2 w hne h
    have hd := congrArg String.data h
    rw [generateQueryCacheKey_data, generateQueryCacheKey_data] at hd
    have h1 := List.append_cancel_left hd
    have h2 := List.append_cancel_left h1
    have h3 := List.append_cancel_right h2
    exact hne (string_data_inj h3)

/-- C6 witness: the amended theorem applied at concrete arguments. -/
theorem C6_key_sensitivity_witness :
    generateQueryCacheKey "q" 5 none none none ≠ generateQueryCacheKey "q" 6 none none none
    ∧ generateQueryCacheKey "q" 5 (some true) none none
        ≠ generateQueryCacheKey "q" 5 (some false) none none
    ∧ generateQueryCacheKey "q" 5 none (some true) none
        ≠ generateQueryCacheKey "q" 5 none (some false) none
    ∧ generateQueryCacheKey "q" 5 none none (some 2) ≠ generateQueryCacheKey "q" 5 none none (some 4)
    ∧ generateQueryCacheKey "ab" 5 none none none ≠ generateQueryCacheKey "ba" 5 none none none :=
  ⟨C6_key_sensitivity_amended.2.1 "q" 5 6 none none none (by decide),
   C6_key_sensitivity_amended.2.2.1 "q" 5 (some true) (some false) none none (by decide),
   C6_key_sensitivity_amended.2.2.2.1 "q" 5 none (some true) (some false) none (by decide),
   C6_key_sensitivity_amended.2.2.2.2.1 "q" 5 none none 2 4 (by decide) (by decide) (by decide),
   C6_key_sensitivity_amended.2.2.2.2.2 "ab" "ba" 5 none none none (by decide)⟩

/-! Rate-limiter lemmas for C3. -/

theorem rlStep_deny {limit : Nat} {w now : Int} {ts : List Int}
    (h : limit ≤ (ts.filter (fun t => decide (now - t < w))).length) :
    rlStep limit w now ts = (false, ts.filter (fun t => decide (now - t < w))) := by
  simp [rlStep, h]

theorem rlStep_allow {limit : Nat} {w now : Int} {ts : List Int}
    (h : ¬ limit ≤ (ts.filter (fun t => decide (now - t < w))).length) :
    rlStep limit w now ts = (true, ts.filter (fun t => decide (now - t < w)) ++ [now]) := by
  simp [rlStep, h]

theorem admittedTimes_cons (n : Int) (b : Bool) (l : List (Int × Bool)) :
    admittedTimes ((n, b) :: l) = if b then n :: admittedTimes l else admittedTimes l := by
  cases b <;> simp [admittedTimes]

theorem cw_append (a w : Int) (l1 l2 : List Int) :
    cw a w (l1 ++ l2) = cw a w l1 + cw a w l2 := by
  simp [cw, List.filter_append]

theorem cw_singleton (a w n : Int) :
    cw a w [n] = if inWindow a w n then 1 else 0 := by
  by_cases h : inWindow a w n = true <;> simp [cw, List.filter_cons, h]

theorem filter_length_mono {α : Type} {p q : α → Bool} (h : ∀ x, p x = true → q x = true) :
    ∀ l : List α, (l.filter p).length ≤ (l.filter q).length := by
  intro l
  induction l with
  | nil => simp
  | cons x rest ih =>
    by_cases hp : p x = true
    · rw [List.filter_cons_of_pos hp, List.filter_cons_of_pos (h x hp)]
      simpa using ih
    · rw [List.filter_cons_of_neg (by simpa using hp)]
      by_cases hq : q x = true
      · rw [List.filter_cons_of_pos hq]
        exact le_trans ih (by simp)
      · rw [List.filter_cons_of_neg (by simpa using hq)]
        exact ih

theorem rl_master (limit : Nat) (w : Int) (hW : 0 < w) :
    ∀ (l P ts : List Int) (m0 : Int),
      List.Pairwise (· ≤ ·) l →
      (∀ x ∈ P, x ≤ m0) →
      (∀ s ∈ l, m0 ≤ s) →
      ts = P.filter (fun x => decide (m0 - x < w)) →
      (∀ a, cw a w P ≤ limit) →
      ∀ a, cw a w (P ++ admittedTimes (rlRunTs limit w ts l)) ≤ limit := by
  intro l
  induction l with
  | nil =>
    intro P ts m0 _ _ _ _ hP a
    simpa [rlRunTs, admittedTimes] using hP a
  | cons n rest ih =>
    intro P ts m0 hsort hPm0 hlm0 hts hP a
    have hm0n : m0 ≤ n := hlm0 n (List.mem_cons_self n rest)
    have hrest : ∀ s ∈ rest, n ≤ s := (List.pairwise_cons.mp hsort).1
    have hsort' : List.Pairwise (· ≤ ·) rest := (List.pairwise_cons.mp hsort).2
    have hpruned : ts.filter (fun x => decide (n - x < w))
        = P.filter (fun x => decide (n - x < w)) := by
      rw [hts, List.filter_filter]
      refine List.filter_congr ?_
      intro x _
      have hiff : ((n - x < w) ∧ (m0 - x < w)) ↔ (n - x < w) := by
        constructor
        · exact fun hc => hc.1
        · intro hc; exact ⟨hc, by omega⟩
      calc (decide (n - x < w) && decide (m0 - x < w))
          = decide ((n - x < w) ∧ (m0 - x < w)) := (Bool.decide_and _ _).symm
      _ = decide (n - x < w) := decide_eq_decide.mpr hiff
    by_cases hfull : limit ≤ (ts.filter (fun x => decide (n - x < w))).length
    · rw [show rlRunTs limit w ts (n :: rest)
          = (n, false) :: rlRunTs limit w (ts.filter (fun x => decide (n - x < w))) rest from by
        simp [rlRunTs, rlStep_deny hfull]]
      rw [admittedTimes_cons]
      simp only [Bool.false_eq_true, if_false]
      exact ih P _ n hsort' (fun x hx => le_trans (hPm0 x hx) hm0n) hrest hpruned hP a
    · rw [show rlRunTs limit w ts (n :: rest)
          = (n, true) :: rlRunTs limit w (ts.filter (fun x => decide (n - x < w)) ++ [n]) rest from by
        simp [rlRunTs, rlStep_allow hfull]]
      rw [admittedTimes_cons]
      simp only [if_true]
      rw [List.append_cons]
      refine ih (P ++ [n]) _ n hsort' ?_ hrest ?_ ?_ a
      · intro x hx
        rcases List.mem_append.mp hx with h1 | h1
        · exact le_trans (hPm0 x h1) hm0n
        · rw [List.mem_singleton.mp h1]
      · rw [List.filter_append, hpruned]
        congr 1
        simp [hW]
      · intro a'
        rw [cw_append, cw_singleton]
        by_cases hin : inWindow a' w n = true
        · rw [if_pos hin]
          have hin' : a' ≤ n ∧ n < a' + w := by
            simpa [inWindow, Bool.and_eq_true, decide_eq_true_eq] using hin
          have hsub : ∀ x, inWindow a' w x = true → (fun x => decide (n - x < w)) x = true := by
            intro x hx
            have hx' : a' ≤ x ∧ x < a' + w := by
              simpa [inWindow, Bool.and_eq_true, decide_eq_true_eq] using hx
            simp only [decide_eq_true_eq]
            omega
          have h1 : cw a' w P ≤ (P.filter (fun x => decide (n - x < w))).length :=
            filter_length_mono hsub P
          have h2 : (P.filter (fun x => decide (n - x < w))).length < limit := by
            rw [← hpruned]
            omega
          omega
        · rw [if_neg hin]
          have := hP a'
          omega

theorem rateLimit_allowed (m : List (String × Bucket)) (now : Int) (key : String)
    (limit : Nat) (w : Int) :
    (rateLimit m now key limit w).1.allowed = (rlStep limit w now (bucketTs m key)).1 := by
  unfold rateLimit rlStep bucketTs
  cases hf : assocFind key m with
  | none =>
    by_cases hlim : limit = 0 <;> simp [hf, hlim]
  | some b =>
    by_cases hlen : limit ≤ ((b.timestamps).filter (fun t => decide (now - t < w))).length <;>
      simp [hf, hlen]

theorem rateLimit_bucket (m : List (String × Bucket)) (now : Int) (key : String)
    (limit : Nat) (w : Int) :
    assocFind key ((rateLimit m now key limit w).2)
      = some { timestamps := (rlStep limit w now (bucketTs m key)).2, limit := limit, windowMs := w } := by
  unfold rateLimit rlStep bucketTs
  cases hf : assocFind key m with
  | none =>
    by_cases hlim : limit = 0 <;> simp [hf, hlim, assocFind_set_self]
  | some b =>
    by_cases hlen : limit ≤ ((b.timestamps).filter (fun t => decide (now - t < w))).length <;>
      simp [hf, hlen, assocFind_set_self]

theorem bucketTs_after (m : List (String × Bucket)) (now : Int) (key : String)
    (limit : Nat) (w : Int) :
    bucketTs ((rateLimit m now key limit w).2) key = (rlStep limit w now (bucketTs m key)).2 := by
  simp [bucketTs, rateLimit_bucket]

theorem rlMapRun_eq_pure (key : String) (limit : Nat) (w : Int) :
    ∀ (l : List Int) (m : List (String × Bucket)),
      rlMapRun key limit w m l = rlRunTs limit w (bucketTs m key) l := by
  intro l
  induction l with
  | nil => intro m; rfl
  | cons n rest ih =>
    intro m
    simp only [rlMapRun, rlRunTs]
    exact congrArg₂ List.cons (congrArg (Prod.mk n) (rateLimit_allowed m n key limit w))
      (by rw [ih ((rateLimit m n key limit w).2), bucketTs_after])

theorem rlMapFinal_concat (key : String) (limit : Nat) (w : Int) (m : List (String × Bucket))
    (p : List Int) (n : Int) :
    rlMapFinal key limit w m (p ++ [n]) = (rateLimit (rlMapFinal key limit w m p) n key limit w).2 := by
  simp [rlMapFinal, List.foldl_append]

theorem rlFinalTs_concat (limit : Nat) (w : Int) (ts : List Int) (p : List Int) (n : Int) :
    rlFinalTs limit w ts (p ++ [n]) = (rlStep limit w n (rlFinalTs limit w ts p)).2 := by
  simp [rlFinalTs, List.foldl_append]

theorem bucketTs_final (key : String) (limit : Nat) (w : Int) :
    ∀ (p : List Int) (m : List (String × Bucket)),
      bucketTs (rlMapFinal key limit w m p) key = rlFinalTs limit w (bucketTs m key) p := by
  intro p
  induction p with
  | nil => intro m; rfl
  | cons x p ih =>
    intro m
    have h1 : rlMapFinal key limit w m (x :: p)
        = rlMapFinal key limit w ((rateLimit m x key limit w).2) p := rfl
    have h2 : rlFinalTs limit w (bucketTs m key) (x :: p)
        = rlFinalTs limit w ((rlStep limit w x (bucketTs m key)).2) p := rfl
    rw [h1, h2, ih, bucketTs_after]

theorem rlStep_length {limit : Nat} {w now : Int} {ts : List Int} (h : ts.length ≤ limit) :
    ((rlStep limit w now ts).2).length ≤ limit := by
  by_cases hfull : limit ≤ (ts.filter (fun t => decide (now - t < w))).length
  · rw [rlStep_deny hfull]
    exact le_trans (List.length_filter_le _ _) h
  · rw [rlStep_allow hfull]
    simp only [List.length_append, List.length_cons, List.length_nil]
    omega

theorem rlFinalTs_length (limit : Nat) (w : Int) :
    ∀ (p ts : List Int), ts.length ≤ limit → (rlFinalTs limit w ts p).length ≤ limit := by
  intro p
  induction p with
  | nil => intro ts h; exact h
  | cons x p ih => intro ts h; exact ih _ (rlStep_length h)

theorem rlStep_window {limit : Nat} {w now : Int} (hW : 0 < w) (ts : List Int) :
    ∀ t ∈ (rlStep limit w now ts).2, now - t < w := by
  by_cases hfull : limit ≤ (ts.filter (fun t => decide (now - t < w))).length
  · rw [rlStep_deny hfull]
    intro t ht
    have := List.mem_filter.mp ht
    simpa using this.2
  · rw [rlStep_allow hfull]
    intro t ht
    rcases List.mem_append.mp ht with h1 | h1
    · have := List.mem_filter.mp h1
      simpa using this.2
    · rw [List.mem_singleton.mp h1]
      omega

/-- C3: for a fixed key, limit and positive window, and every non-decreasing
pattern of call instants, no half-open time interval of length `windowMs`
contains more than `limit` admitted calls; and after each call the bucket
holds at most `limit` timestamps, all within `windowMs` of that call's
instant. -/
theorem C3_sliding_window (key : String) (limit : Nat) (w : Int) (times : List Int)
    (hW : 0 < w) (hsorted : List.Pairwise (· ≤ ·) times) :
    (∀ a : Int, cw a w (admittedTimes (rlMapRun key limit w [] times)) ≤ limit)
    ∧ (∀ (p : List Int) (n : Int) (rest : List Int), times = p ++ n :: rest →
      ∃ b : Bucket, assocFind key (rlMapFinal key limit w [] (p ++ [n])) = some b
        ∧ b.timestamps.length ≤ limit
        ∧ ∀ t ∈ b.timestamps, n - t < w) := by
  constructor
  · intro a
    rw [rlMapRun_eq_pure]
    cases times with
    | nil => simp [rlRunTs, admittedTimes, cw, bucketTs, assocFind]
    | cons n rest =>
      have hmaster := rl_master limit w hW (n :: rest) [] [] n hsorted
        (by intro x hx; simp at hx)
        (by
          intro s hs
          rcases List.mem_cons.mp hs with h1 | h1
          · rw [h1]
          · exact (List.pairwise_cons.mp hsorted).1 s h1)
        (by simp)
        (by intro a'; simp [cw])
      simpa [bucketTs, assocFind] using hmaster a
  · intro p n rest htimes
    refine ⟨{ timestamps := rlFinalTs limit w [] (p ++ [n]), limit := limit, windowMs := w },
      ?_, ?_, ?_⟩
    · rw [rlMapFinal_concat, rateLimit_bucket, bucketTs_final, rlFinalTs_concat]
      simp [bucketTs, assocFind]
    · exact rlFinalTs_length limit w (p ++ [n]) [] (by simp)
    · rw [rlFinalTs_concat]
      exact rlStep_window hW _

/-- C3 witness: the theorem applied with key `k`, limit 1, window 10 and
call instants 0, 0, 5. -/
theorem C3_sliding_window_witness :
    cw 0 10 (admittedTimes (rlMapRun "k" 1 10 [] [0, 0, 5])) ≤ 1
    ∧ ∃ b : Bucket, assocFind "k" (rlMapFinal "k" 1 10 [] ([0] ++ [0])) = some b
        ∧ b.timestamps.length ≤ 1 ∧ ∀ t ∈ b.timestamps, (0 : Int) - t < 10 :=
  ⟨(C3_sliding_window "k" 1 10 [0, 0, 5] (by decide) (by decide)).1 0,
   (C3_sliding_window "k" 1 10 [0, 0, 5] (by decide) (by decide)).2 [0] 0 [5] rfl⟩
